import Mathlib

/-!
Verification of the SuperTicTacToe repository (a UCT Monte Carlo tree search
engine playing tic-tac-toe and super tic-tac-toe).

The Python sources are shallowly embedded:
* `TicTacToe` models the `TicTacToe` class (identical in `game_state.py` and
  `board.py`): a flat 9-square board, `player_just_moved`, and the methods
  `clone`, `do_move`, `get_moves`, `get_result`.
* `SuperTicTacToe` models the `SuperTicTacToe` class of `game_state.py`
  (nine sub-boards, `sub_boards_won`, `squares_played`, `last_square_played`).
  The `board.py` variant of `do_move`/`sub_board_result` is modelled under the
  `Board` prefix.
* Python `assert` failures and `IndexError`s are modelled by `Option` results
  (`none` = the call raises).  Python floats holding game results (sums of
  0.0, 0.5, 1.0, all exactly representable) are modelled as rationals.
* Machine integers are Python arbitrary-precision ints, modelled by `Nat`
  (all quantities in this program are non-negative at well-formed states).
-/

/-- The eight three-in-a-row lines of a 3×3 board, in the order the Python
source lists them: rows, columns, diagonals. -/
def win_lines : List (Nat × Nat × Nat) :=
  [(0, 1, 2), (3, 4, 5), (6, 7, 8), (0, 3, 6), (1, 4, 7), (2, 5, 8), (0, 4, 8), (2, 4, 6)]

/-- State of the `TicTacToe` class: `player_just_moved` and the 9-square board
(0 = empty, 1 = player 1, 2 = player 2). -/
structure TicTacToe where
  player_just_moved : Nat
  board : List Nat
deriving DecidableEq, Repr

/-- The constructor `TicTacToe.__init__`: empty board, player 2 pretends to
have just moved. -/
def TicTacToe.init : TicTacToe :=
  ⟨2, [0, 0, 0, 0, 0, 0, 0, 0, 0]⟩

/-- `TicTacToe.clone`: copies `player_just_moved` and the board. -/
def TicTacToe.clone (s : TicTacToe) : TicTacToe :=
  ⟨s.player_just_moved, s.board⟩

/-- `TicTacToe.do_move`: asserts `0 <= move <= 8` and that the square is
empty (assertion failure = `none`), then flips `player_just_moved` and marks
the square.  Out-of-range board reads use default 1 (non-empty), matching the
`IndexError` a short board would raise in Python. -/
def TicTacToe.do_move (s : TicTacToe) (move : Nat) : Option TicTacToe :=
  if move ≤ 8 ∧ s.board.getD move 1 = 0 then
    let p := 3 - s.player_just_moved
    some ⟨p, s.board.set move p⟩
  else none

/-- `TicTacToe.get_moves`: every empty square in `range(9)`. -/
def TicTacToe.get_moves (s : TicTacToe) : List Nat :=
  (List.range 9).filter (fun i => s.board.getD i 1 = 0)

/-- `TicTacToe.get_result`: scan the eight lines in order; the first line whose
three squares are equal decides (1.0 if owned by `player`, else 0.0); otherwise
0.5 if the board is full; otherwise the Python code hits `assert False`
(modelled as `none`). -/
def TicTacToe.get_result (s : TicTacToe) (player : Nat) : Option ℚ :=
  match win_lines.find? (fun t =>
      decide (s.board.getD t.1 9 = s.board.getD t.2.1 9 ∧
              s.board.getD t.2.1 9 = s.board.getD t.2.2 9)) with
  | some t => some (if s.board.getD t.1 9 = player then 1 else 0)
  | none => if s.get_moves = [] then some (1 / 2) else none

/-- Type invariant of `TicTacToe` states: a 9-square board with marks in
{0, 1, 2} and a player in {1, 2}. -/
def TicTacToe.wf (s : TicTacToe) : Prop :=
  s.board.length = 9 ∧ (∀ v ∈ s.board, v ≤ 2) ∧
    (s.player_just_moved = 1 ∨ s.player_just_moved = 2)

instance (s : TicTacToe) : Decidable s.wf := by
  unfold TicTacToe.wf; infer_instance

/-- State of the `SuperTicTacToe` class: nine sub-boards of nine squares,
win counters indexed by player (index 0 unused), number of squares played,
and the square index of the last move (it selects the next sub-board). -/
structure SuperTicTacToe where
  player_just_moved : Nat
  board : List (List Nat)
  sub_boards_won : List Nat
  squares_played : Nat
  last_square_played : Nat
deriving DecidableEq, Repr

/-- The constructor `SuperTicTacToe.__init__`. -/
def SuperTicTacToe.init : SuperTicTacToe :=
  ⟨2, List.replicate 9 (List.replicate 9 0), [0, 0, 0], 0, 0⟩

/-- The board read `self.board[sub_board][square]`.  Out-of-range reads
default to 9, which is never a legal mark, matching Python's `IndexError`. -/
def SuperTicTacToe.square (s : SuperTicTacToe) (sub_board sq : Nat) : Nat :=
  (s.board.getD sub_board []).getD sq 9

/-- `SuperTicTacToe.wins_sub_board`: some line of the sub-board has three
equal marks belonging to `player`. -/
def SuperTicTacToe.wins_sub_board (s : SuperTicTacToe) (player sub_board : Nat) : Bool :=
  win_lines.any (fun t =>
    decide (s.square sub_board t.1 = s.square sub_board t.2.1 ∧
            s.square sub_board t.2.1 = s.square sub_board t.2.2 ∧
            s.square sub_board t.1 = player))

/-- `SuperTicTacToe.clone` as written in the source (both `game_state.py` and
`board.py`): it copies the board, the win counters and `squares_played`, but
sets `state.last_square_played = 0` instead of copying the original's value. -/
def SuperTicTacToe.clone (s : SuperTicTacToe) : SuperTicTacToe :=
  ⟨s.player_just_moved, s.board, s.sub_boards_won, s.squares_played, 0⟩

/-- The state update shared by both `do_move` variants before the sub-board
win check: flip the player, record `last_square_played`, bump
`squares_played`, mark the square. -/
def SuperTicTacToe.mark (s : SuperTicTacToe) (sub_board sq : Nat) : SuperTicTacToe :=
  let p := 3 - s.player_just_moved
  { player_just_moved := p
    board := s.board.set sub_board ((s.board.getD sub_board []).set sq p)
    sub_boards_won := s.sub_boards_won
    squares_played := s.squares_played + 1
    last_square_played := sq }

/-- The increment `self.sub_boards_won[self.player_just_moved] += 1`. -/
def SuperTicTacToe.add_win (s : SuperTicTacToe) : SuperTicTacToe :=
  { s with sub_boards_won := s.sub_boards_won.set s.player_just_moved (s.sub_boards_won.getD s.player_just_moved 0 + 1) }

/-- `SuperTicTacToe.do_move` of `game_state.py`: asserts the addressed square
exists and is empty, performs the common update, then increments the mover's
win counter when the move wins the sub-board. -/
def SuperTicTacToe.do_move (s : SuperTicTacToe) (move : Nat × Nat) : Option SuperTicTacToe :=
  if move.1 ≤ 8 ∧ move.2 ≤ 8 ∧ s.square move.1 move.2 = 0 then
    let s' := s.mark move.1 move.2
    some (if s'.wins_sub_board s'.player_just_moved move.1 then s'.add_win else s')
  else none

/-- `SuperTicTacToe.sub_board_is_available` of `game_state.py`: not won by
either player and containing an empty square. -/
def SuperTicTacToe.sub_board_is_available (s : SuperTicTacToe) (sub_board : Nat) : Bool :=
  if s.wins_sub_board 1 sub_board then false
  else if s.wins_sub_board 2 sub_board then false
  else (List.range 9).any (fun i => s.square sub_board i = 0)

/-- `SuperTicTacToe.get_moves` of `game_state.py`: empty once someone owns 3
sub-boards; all 81 squares on the first move; otherwise the sub-board selected
by `last_square_played` when it is available, else every empty square of every
available sub-board. -/
def SuperTicTacToe.get_moves (s : SuperTicTacToe) : List (Nat × Nat) :=
  if s.sub_boards_won.getD 1 0 = 3 ∨ s.sub_boards_won.getD 2 0 = 3 then []
  else if s.squares_played = 0 then
    (List.range 9).flatMap (fun i => (List.range 9).map (fun j => (i, j)))
  else if s.sub_board_is_available s.last_square_played then
    ((List.range 9).filter (fun i => s.square s.last_square_played i = 0)).map
      (fun i => (s.last_square_played, i))
  else
    (List.range 9).flatMap (fun sub_board =>
      if s.sub_board_is_available sub_board then
        ((List.range 9).filter (fun i => s.square sub_board i = 0)).map
          (fun i => (sub_board, i))
      else [])

/-- `SuperTicTacToe.get_result`: 1.0 to the owner of three sub-boards, 0.0 to
the opponent, 0.5 otherwise. -/
def SuperTicTacToe.get_result (s : SuperTicTacToe) (player : Nat) : ℚ :=
  if s.sub_boards_won.getD player 0 = 3 then 1
  else if s.sub_boards_won.getD (3 - player) 0 = 3 then 0
  else 1 / 2

/-- States reachable by legal play: the initial position, closed under
applying a move drawn from `get_moves`. -/
inductive SuperTicTacToe.Reachable : SuperTicTacToe → Prop where
  | init : SuperTicTacToe.Reachable SuperTicTacToe.init
  | step : ∀ s m s', SuperTicTacToe.Reachable s → m ∈ s.get_moves →
      s.do_move m = some s' → SuperTicTacToe.Reachable s'

/-- Win-counter sanity: both counters are at most 3 and they are not both 3.
This is the invariant of legal play that makes `get_result` zero-sum. -/
def SuperTicTacToe.WonOk (s : SuperTicTacToe) : Prop :=
  s.sub_boards_won.getD 1 0 ≤ 3 ∧ s.sub_boards_won.getD 2 0 ≤ 3 ∧
    ¬(s.sub_boards_won.getD 1 0 = 3 ∧ s.sub_boards_won.getD 2 0 = 3)

instance (s : SuperTicTacToe) : Decidable s.WonOk := by
  unfold SuperTicTacToe.WonOk; infer_instance

/-- Python's `==` between a list and an integer: values of different types
compare unequal, so the comparison `self.board[x] == player` in
`board.py`'s `sub_board_result` (a list of ints against an int) is always
`False`. -/
def pyEqListInt (_l : List Nat) (_n : Nat) : Bool := false

/-- `SuperTicTacToe.sub_board_result` of `board.py`: finds the first line of
the sub-board whose three squares are equal and then tests
`self.board[x] == player` — note the source compares the whole sub-board list
`self.board[x]` (not the square `sub_board[x]`) with the player number, which
is a list-against-int comparison.  With no uniform line the function falls
through and returns Python `None` (modelled as `none`). -/
def Board.sub_board_result (s : SuperTicTacToe) (player sub_board : Nat) : Option ℚ :=
  match win_lines.find? (fun t =>
      decide ((s.board.getD sub_board []).getD t.1 9 = (s.board.getD sub_board []).getD t.2.1 9 ∧
              (s.board.getD sub_board []).getD t.2.1 9 = (s.board.getD sub_board []).getD t.2.2 9)) with
  | some t => some (if pyEqListInt (s.board.getD t.1 []) player then 1 else 0)
  | none => none

/-- Outcome of `board.py`'s `do_move`: an assertion failure, a `sys.exit(1)`
terminating the whole program (carrying the state at exit time), or a normal
return. -/
inductive Board.MoveOutcome where
  | fail : Board.MoveOutcome
  | sysExit : SuperTicTacToe → Board.MoveOutcome
  | ok : SuperTicTacToe → Board.MoveOutcome
deriving DecidableEq, Repr

/-- `SuperTicTacToe.do_move` of `board.py`: same assertions and common update
as the `game_state.py` variant, but then, if `sub_board_result` returns 1.0
for the mover, it increments the win counter and calls `sys.exit(1)`. -/
def Board.do_move (s : SuperTicTacToe) (move : Nat × Nat) : Board.MoveOutcome :=
  if move.1 ≤ 8 ∧ move.2 ≤ 8 ∧ s.square move.1 move.2 = 0 then
    let s' := s.mark move.1 move.2
    if Board.sub_board_result s' s'.player_just_moved move.1 = some 1 then
      Board.MoveOutcome.sysExit s'.add_win
    else Board.MoveOutcome.ok s'
  else Board.MoveOutcome.fail

/-- The position after the single legal opening move (0, 5): player 1 marked
square 5 of sub-board 0, so the next move is forced into sub-board 5. -/
def sAfter05 : SuperTicTacToe :=
  ⟨1,
   [[0, 0, 0, 0, 0, 1, 0, 0, 0],
    List.replicate 9 0, List.replicate 9 0, List.replicate 9 0, List.replicate 9 0,
    List.replicate 9 0, List.replicate 9 0, List.replicate 9 0, List.replicate 9 0],
   [0, 0, 0], 1, 5⟩

/-- A position where player 1 (to move, since player 2 just moved) completes
three-in-a-row on sub-board 0 by playing (0, 2). -/
def s3 : SuperTicTacToe :=
  ⟨2,
   [[1, 1, 0, 0, 0, 0, 0, 0, 0],
    [2, 2, 0, 0, 0, 0, 0, 0, 0],
    List.replicate 9 0, List.replicate 9 0, List.replicate 9 0,
    List.replicate 9 0, List.replicate 9 0, List.replicate 9 0, List.replicate 9 0],
   [0, 0, 0], 4, 1⟩

/-- A drawn, completely full tic-tac-toe board with no three-in-a-row. -/
def dTTT : TicTacToe :=
  ⟨1, [1, 2, 1, 1, 2, 2, 2, 1, 1]⟩

/-- A super tic-tac-toe state in which player 1 owns three sub-boards, so the
game is over. -/
def sWon : SuperTicTacToe :=
  ⟨1, List.replicate 9 (List.replicate 9 0), [0, 3, 0], 21, 0⟩

/-- Stable insertion used to model Python's `sorted(..., key=...)`: a new
element goes after every element whose key is less than or equal to its own,
so the original order of equal keys is preserved. -/
def insertAsc {α β : Type} [LinearOrder β] (key : α → β) (x : α) : List α → List α
  | [] => [x]
  | y :: ys => if key y ≤ key x then y :: insertAsc key x ys else x :: y :: ys

/-- Python's stable ascending `sorted(l, key=key)`. -/
def pySorted {α β : Type} [LinearOrder β] (key : α → β) (l : List α) : List α :=
  l.foldl (fun acc x => insertAsc key x acc) []

/-- The rightmost maximum of `l` under `key` — the element that
`sorted(l, key=key)[-1]` returns for a stable ascending sort (`none` for an
empty list, where Python's `[-1]` raises `IndexError`); see
`pySorted_getLast?_eq_argmaxLast`. -/
def maxStep {α β : Type} [LinearOrder β] (key : α → β) (b y : α) : α :=
  if key b ≤ key y then y else b

def argmaxLast {α β : Type} [LinearOrder β] (key : α → β) : List α → Option α
  | [] => none
  | x :: xs => some (xs.foldl (maxStep key) x)

/-- Index (in the original list) of the rightmost maximum under `key`. -/
def argmaxIdxLast {α β : Type} [LinearOrder β] (key : α → β) (l : List α) : Option Nat :=
  (argmaxLast (fun p => key p.2) l.enum).map (fun p => p.1)

/-- The `GameState` capability contract consumed by the search engine.
`do_move` is total here because the engine only applies moves drawn from
`get_moves`, on which the concrete games never raise. -/
structure Game (σ μ : Type) where
  clone : σ → σ
  get_moves : σ → List μ
  do_move : σ → μ → σ
  player_just_moved : σ → Nat
  get_result : σ → Nat → ℚ

/-- The per-node fields of `play.py`'s `Node`, apart from the tree links:
`move`, `wins`, `visits`, `untried_moves`, `player_just_moved`. -/
structure NodeInfo (μ : Type) where
  move : Option μ
  wins : ℚ
  visits : Nat
  untried_moves : List μ
  player_just_moved : Nat
deriving DecidableEq, Repr

/-- The game tree: a `Node` together with its `child_nodes`.  The
`parent_node` link is implicit in the tree structure; backpropagation walks it
by returning from the recursion. -/
inductive STree (μ : Type) where
  | node : NodeInfo μ → List (STree μ) → STree μ
deriving Repr

def STree.info {μ : Type} : STree μ → NodeInfo μ
  | .node i _ => i

def STree.children {μ : Type} : STree μ → List (STree μ)
  | .node _ c => c

mutual

def STree.depth {μ : Type} : STree μ → Nat
  | .node _ cs => 1 + STree.depthList cs

def STree.depthList {μ : Type} : List (STree μ) → Nat
  | [] => 0
  | c :: cs => max (STree.depth c) (STree.depthList cs)

end

/-- `Node.__init__(move, parent, state)`: zero statistics, untried moves and
`player_just_moved` taken from the state. -/
def Node.make {σ μ : Type} (g : Game σ μ) (move : Option μ) (s : σ) : NodeInfo μ :=
  { move := move, wins := 0, visits := 0,
    untried_moves := g.get_moves s, player_just_moved := g.player_just_moved s }

/-- `Node.update(result)`: one more visit, `result` more wins. -/
def NodeInfo.update {μ : Type} (info : NodeInfo μ) (result : ℚ) : NodeInfo μ :=
  { info with visits := info.visits + 1, wins := info.wins + result }

/-- The UCB1 score used by `Node.select_child`:
`c.wins / c.visits + sqrt(2 * log(self.visits) / c.visits)` with exploration
constant 1.  The Python float arithmetic is modelled over the reals. -/
noncomputable def ucb_key {μ : Type} (parent_visits : Nat) (c : NodeInfo μ) : ℝ :=
  (c.wins : ℝ) / (c.visits : ℝ) + Real.sqrt (2 * Real.log (parent_visits : ℝ) / (c.visits : ℝ))

/-- `Node.select_child`: `sorted(self.child_nodes, key=ucb)[-1]`. -/
noncomputable def select_child {μ : Type} (t : STree μ) : Option (STree μ) :=
  (pySorted (fun c => ucb_key t.info.visits c.info) t.children).getLast?

/-- The rollout loop of `search`: while the working state has legal moves,
apply a random one.  `rng` supplies the indices drawn by `random.choice` and
`k` is the position in that stream.  Python's `while` has no fuel; `fuel`
bounds the modelled iterations and is irrelevant whenever it is at least the
number of moves remaining in the game. -/
def rollout {σ μ : Type} (g : Game σ μ) (rng : Nat → Nat) :
    Nat → σ → Nat → σ × Nat
  | 0, s, k => (s, k)
  | fuel + 1, s, k =>
    match g.get_moves s with
    | [] => (s, k)
    | m0 :: mrest =>
      rollout g rng fuel
        (g.do_move s ((m0 :: mrest).getD (rng k % (m0 :: mrest).length) m0)) (k + 1)

/-- One pass of the `search` loop body on (a subtree of) the tree, carrying
the working state `s` and the random-stream position `k`:

* while the node has no untried moves and has children, descend into the
  UCB1-selected child, applying its move to the working state (Select);
* at a node with untried moves, apply a random one, append a new child for it
  and remove it from `untried_moves` (Expand), then play out the game
  randomly (Rollout);
* at a node with no untried moves and no children, just run the (vacuous)
  rollout loop;
* on the way back up, update every node on the path with the terminal state's
  result from the viewpoint of that node's own `player_just_moved`
  (Backpropagate).

Returns the updated subtree, the terminal working state, the next
random-stream position, and the child-index path of the node where
backpropagation started.  `fuel` bounds the recursion depth; `depth` of the
tree is always enough (see `simulate_backprop`). -/
def simulate {σ μ : Type} [DecidableEq μ] {β : Type} [LinearOrder β]
    (g : Game σ μ) (key : Nat → NodeInfo μ → β) (rng : Nat → Nat) (rfuel : Nat) :
    Nat → STree μ → σ → Nat → STree μ × σ × Nat × List Nat
  | 0, t, s, k => (t, s, k, [])
  | fuel + 1, STree.node info cs, s, k =>
    if info.untried_moves.isEmpty ∧ ¬cs.isEmpty then
      let i := (argmaxIdxLast (fun c => key info.visits c.info) cs).getD 0
      let c := cs.getD i (STree.node info [])
      let s1 := (c.info.move).elim s (g.do_move s)
      let r := simulate g key rng rfuel fuel c s1 k
      (STree.node (info.update (g.get_result r.2.1 info.player_just_moved)) (cs.set i r.1),
        r.2.1, r.2.2.1, i :: r.2.2.2)
    else
      match info.untried_moves with
      | [] =>
        let rr := rollout g rng rfuel s k
        (STree.node (info.update (g.get_result rr.1 info.player_just_moved)) cs,
          rr.1, rr.2, [])
      | m0 :: mrest =>
        let um := m0 :: mrest
        let m := um.getD (rng k % um.length) m0
        let s1 := g.do_move s m
        let rr := rollout g rng rfuel s1 (k + 1)
        let child : STree μ := STree.node
          ⟨some m, g.get_result rr.1 (g.player_just_moved s1), 1,
            g.get_moves s1, g.player_just_moved s1⟩ []
        (STree.node (({ info with untried_moves := um.erase m }).update
            (g.get_result rr.1 info.player_just_moved)) (cs ++ [child]),
          rr.1, rr.2, [cs.length])

/-- `search`'s root node: `Node(state=rootstate)`. -/
def mkRoot {σ μ : Type} (g : Game σ μ) (s : σ) : STree μ :=
  STree.node (Node.make g none s) []

/-- One iteration of the `search` loop: clone the root state, then run
select / expand / rollout / backpropagate. -/
def iteration {σ μ : Type} [DecidableEq μ] {β : Type} [LinearOrder β]
    (g : Game σ μ) (key : Nat → NodeInfo μ → β) (rng : Nat → Nat) (rfuel : Nat)
    (rootstate : σ) (t : STree μ) (k : Nat) : STree μ × Nat × List Nat :=
  let r := simulate g key rng rfuel t.depth t (g.clone rootstate) k
  (r.1, r.2.2.1, r.2.2.2)

/-- The first `n` iterations of `search`: the tree, the random-stream
position, and the list of the backpropagation start paths of the iterations
performed so far. -/
def run {σ μ : Type} [DecidableEq μ] {β : Type} [LinearOrder β]
    (g : Game σ μ) (key : Nat → NodeInfo μ → β) (rng : Nat → Nat) (rfuel : Nat)
    (rootstate : σ) : Nat → STree μ × Nat × List (List Nat)
  | 0 => (mkRoot g rootstate, 0, [])
  | n + 1 =>
    let r := run g key rng rfuel rootstate n
    let it := iteration g key rng rfuel rootstate r.1 r.2.1
    (it.1, it.2.1, r.2.2 ++ [it.2.2])

/-- `search(rootstate, itermax)`: run the iterations, then return
`sorted(rootnode.child_nodes, key=lambda c: c.visits)[-1].move`. -/
def search {σ μ : Type} [DecidableEq μ] {β : Type} [LinearOrder β]
    (g : Game σ μ) (key : Nat → NodeInfo μ → β) (rng : Nat → Nat) (rfuel : Nat)
    (rootstate : σ) (itermax : Nat) : Option μ :=
  ((pySorted (fun c => c.info.visits)
      (run g key rng rfuel rootstate itermax).1.children).getLast?).bind
    (fun c => c.info.move)

/-- The search as shipped: `search` driven by the UCB1 key. -/
noncomputable def uct_search {σ μ : Type} [DecidableEq μ] (g : Game σ μ)
    (rng : Nat → Nat) (rfuel : Nat) (rootstate : σ) (itermax : Nat) : Option μ :=
  search g ucb_key rng rfuel rootstate itermax

/-- The `TicTacToe` implementation of the game contract as `search` consumes
it.  Moves are always drawn from `get_moves`, on which `do_move` never raises;
the impossible failure is discharged with the unchanged state. -/
def tttGame : Game TicTacToe Nat :=
  { clone := TicTacToe.clone
    get_moves := TicTacToe.get_moves
    do_move := fun s m => (s.do_move m).getD s
    player_just_moved := TicTacToe.player_just_moved
    get_result := fun s p => (s.get_result p).getD 0 }

/-- The subtree at a path of child indices. -/
def subtreeAt {μ : Type} : STree μ → List Nat → Option (STree μ)
  | t, [] => some t
  | STree.node _ cs, j :: q => cs[j]?.bind (fun c => subtreeAt c q)

/-- The effect of one search iteration on the tree, given the terminal state
`ts` reached by the rollout: exactly the nodes along one root path receive one
more visit and `get_result ts player_just_moved` more wins — each from the
viewpoint of its own `player_just_moved` — and every node off the path is
unchanged.  The path ends either by appending one expanded child (created and
updated within the same iteration: 1 visit, `result` wins, its move removed
from the parent's untried list), or at a terminal leaf that has no untried
moves and no children.  The index list is the path of the node where the
backward walk started. -/
inductive Backprop {σ μ : Type} [DecidableEq μ] (g : Game σ μ) (ts : σ) :
    List Nat → STree μ → STree μ → Prop where
  | terminal : ∀ info : NodeInfo μ, info.untried_moves = [] →
      Backprop g ts [] (STree.node info [])
        (STree.node (info.update (g.get_result ts info.player_just_moved)) [])
  | expand : ∀ (info : NodeInfo μ) cs m cinfo,
      info.untried_moves ≠ [] → m ∈ info.untried_moves →
      cinfo.move = some m → cinfo.visits = 1 →
      cinfo.wins = g.get_result ts cinfo.player_just_moved →
      Backprop g ts [cs.length] (STree.node info cs)
        (STree.node (({ info with untried_moves := info.untried_moves.erase m }).update
            (g.get_result ts info.player_just_moved)) (cs ++ [STree.node cinfo []]))
  | select : ∀ (info : NodeInfo μ) cs i c c' p,
      info.untried_moves = [] → cs[i]? = some c →
      Backprop g ts p c c' →
      Backprop g ts (i :: p) (STree.node info cs)
        (STree.node (info.update (g.get_result ts info.player_just_moved)) (cs.set i c'))

/-- A key function selecting by visit count, used to exercise the generic
search engine at concrete inputs. -/
def visitsKey : Nat → NodeInfo Nat → Nat := fun _ c => c.visits

/-- A fixed random stream: `random.choice` always picks index 0. -/
def zeroRng : Nat → Nat := fun _ => 0

/-- A tic-tac-toe position where player 1 already has three-in-a-row (squares
0, 1, 2) but four squares are still empty. -/
def s10 : TicTacToe :=
  ⟨1, [1, 1, 1, 2, 2, 0, 0, 0, 0]⟩

/-- Every node that has a child has at least one visit, and every child has at
least one visit: the tree invariant that keeps `select_child`'s UCB1
denominators (`c.visits`) and logarithm argument (`self.visits`) away from
zero. -/
inductive Healthy {μ : Type} : STree μ → Prop where
  | node : ∀ (info : NodeInfo μ) cs, (cs ≠ [] → 1 ≤ info.visits) →
      (∀ c ∈ cs, 1 ≤ c.info.visits) → (∀ c ∈ cs, Healthy c) →
      Healthy (STree.node info cs)

example : TicTacToe.init.get_moves = [0, 1, 2, 3, 4, 5, 6, 7, 8] := by decide
example : SuperTicTacToe.init.get_moves.length = 81 := by decide
example : (SuperTicTacToe.init.do_move (0, 5)).isSome = true := by decide

/-- C1: `clone()` is documented (docstring and spec) as a deep clone of the
game state, but `SuperTicTacToe.clone` in both `game_state.py` and `board.py`
sets the clone's `last_square_played` to 0 instead of copying it.  After the
move (0, 5) the original has `last_square_played = 5` while its clone has 0,
so the clone is not equal to the original. -/
theorem claim_C1_clone_drops_last_square_played :
    SuperTicTacToe.init.do_move (0, 5) = some sAfter05 ∧
    sAfter05.last_square_played = 5 ∧
    sAfter05.clone.last_square_played = 0 ∧
    sAfter05.clone ≠ sAfter05 := by decide

/-- C2 counterexample: after the opening move (0, 5) the routing rules force
the next move into sub-board 5, so (1, 1) is not in `get_moves`; yet
`SuperTicTacToe.do_move` applies it without error because square (1, 1) is
empty — refuting the claim that `do_move` fails fast on every illegal move. -/
theorem claim_C2_counterexample :
    SuperTicTacToe.init.do_move (0, 5) = some sAfter05 ∧
    (1, 1) ∉ sAfter05.get_moves ∧
    (sAfter05.do_move (1, 1)).isSome = true := by decide

/-- C2 (amended): `TicTacToe.do_move` does reject every move outside
`get_moves` (out-of-range index or occupied square), but
`SuperTicTacToe.do_move` checks only that the addressed square exists and is
empty: any such move is silently applied even when `get_moves` excludes it
under the routing rules. -/
theorem claim_C2_amended :
    (∀ (s : TicTacToe) (m : Nat), m ∉ s.get_moves → s.do_move m = none) ∧
    (∀ (s : SuperTicTacToe) (i j : Nat), i ≤ 8 → j ≤ 8 → s.square i j = 0 →
      (i, j) ∉ s.get_moves → (s.do_move (i, j)).isSome = true) := by
  constructor
  · intro s m hm
    unfold TicTacToe.do_move
    split
    · rename_i hg
      exact absurd (List.mem_filter.mpr
        ⟨List.mem_range.mpr (Nat.lt_succ_of_le hg.1), by simpa using hg.2⟩) hm
    · rfl
  · intro s i j hi hj h0 _
    unfold SuperTicTacToe.do_move
    rw [if_pos ⟨hi, hj, h0⟩]
    rfl

/-- C2 witness: the amended theorem applied at concrete inputs — an occupied
square for `TicTacToe`, and the illegal-but-empty square (1, 1) of
`sAfter05` for `SuperTicTacToe`. -/
theorem claim_C2_witness :
    TicTacToe.do_move ⟨1, [1, 2, 1, 0, 0, 0, 0, 0, 0]⟩ 0 = none ∧
    (sAfter05.do_move (1, 1)).isSome = true := by
  constructor
  · exact claim_C2_amended.1 ⟨1, [1, 2, 1, 0, 0, 0, 0, 0, 0]⟩ 0 (by decide)
  · exact claim_C2_amended.2 sAfter05 1 1 (by decide) (by decide) (by decide) (by decide)

/-- C3 counterexample: playing (0, 2) from `s3` gives the mover three-in-a-row
on sub-board 0, yet `board.py`'s `do_move` returns normally (outcome `ok`,
win counters untouched) instead of terminating the program: its
`sub_board_result` compares the sub-board list against the player number,
which is always false in Python, so the `sys.exit(1)` branch is unreachable. -/
theorem claim_C3_counterexample :
    (s3.mark 0 2).wins_sub_board (s3.mark 0 2).player_just_moved 0 = true ∧
    Board.do_move s3 (0, 2) = Board.MoveOutcome.ok (s3.mark 0 2) := by decide

/-- C3 (amended): the two `do_move` variants are not behaviorally equivalent,
but not in the way claimed.  On every applicable move `board.py`'s variant
returns normally with only the common update — its `sys.exit(1)` branch is
unreachable because `sub_board_result` compares a sub-board list with the
player int (always false in Python), so it also never increments the win
counters — while `game_state.py`'s variant additionally increments
`sub_boards_won[mover]` exactly when the move wins the sub-board (and that
incremented state differs from the non-incremented one).  On non-winning
moves the two variants produce the same state. -/
theorem claim_C3_amended (s : SuperTicTacToe) (i j : Nat)
    (hw : s.sub_boards_won.length = 3)
    (hp : s.player_just_moved = 1 ∨ s.player_just_moved = 2)
    (hi : i ≤ 8) (hj : j ≤ 8) (h0 : s.square i j = 0) :
    Board.do_move s (i, j) = Board.MoveOutcome.ok (s.mark i j) ∧
    s.do_move (i, j) = some (if (s.mark i j).wins_sub_board (s.mark i j).player_just_moved i
        then (s.mark i j).add_win else s.mark i j) ∧
    ((s.mark i j).wins_sub_board (s.mark i j).player_just_moved i = true →
      (s.mark i j).add_win ≠ s.mark i j) := by
  refine ⟨?_, ?_, ?_⟩
  · unfold Board.do_move
    rw [if_pos ⟨hi, hj, h0⟩, if_neg]
    unfold Board.sub_board_result
    split
    · simp [pyEqListInt]
    · exact fun h => Option.noConfusion h
  · unfold SuperTicTacToe.do_move
    rw [if_pos ⟨hi, hj, h0⟩]
  · intro _ heq
    have hpl : (s.mark i j).player_just_moved < s.sub_boards_won.length := by
      have hpj : (s.mark i j).player_just_moved = 3 - s.player_just_moved := rfl
      rw [hpj, hw]
      rcases hp with h | h <;> simp [h]
    have h2 : s.sub_boards_won.set (s.mark i j).player_just_moved
        (s.sub_boards_won.getD (s.mark i j).player_just_moved 0 + 1) = s.sub_boards_won := by
      have h2' := congrArg SuperTicTacToe.sub_boards_won heq
      simpa [SuperTicTacToe.add_win, SuperTicTacToe.mark] using h2'
    have h3 := congrArg (fun l => l[(s.mark i j).player_just_moved]?) h2
    simp only [List.getElem?_set_self hpl, List.getD_eq_getElem?_getD,
      List.getElem?_eq_getElem hpl, Option.getD_some, Option.some.injEq] at h3
    omega

/-- C3 witness: the amended theorem applied at the concrete winning move
(0, 2) from `s3`. -/
theorem claim_C3_witness :
    Board.do_move s3 (0, 2) = Board.MoveOutcome.ok (s3.mark 0 2) ∧
    s3.do_move (0, 2) = some (if (s3.mark 0 2).wins_sub_board (s3.mark 0 2).player_just_moved 0
        then (s3.mark 0 2).add_win else s3.mark 0 2) ∧
    ((s3.mark 0 2).wins_sub_board (s3.mark 0 2).player_just_moved 0 = true →
      (s3.mark 0 2).add_win ≠ s3.mark 0 2) :=
  claim_C3_amended s3 0 2 (by decide) (Or.inr rfl) (by decide) (by decide) (by decide)

theorem getD_set_same {l : List Nat} {p v : Nat} (h : p < l.length) :
    (l.set p v).getD p 0 = v := by
  simp [List.getD_eq_getElem?_getD, List.getElem?_set_self h]

theorem getD_set_other {l : List Nat} {p q v : Nat} (h : p ≠ q) :
    (l.set p v).getD q 0 = l.getD q 0 := by
  simp [List.getD_eq_getElem?_getD, List.getElem?_set_ne h]

/-- A legal move can only exist while neither player owns three sub-boards. -/
theorem sttt_mem_get_moves_won (s : SuperTicTacToe) (m : Nat × Nat)
    (hm : m ∈ s.get_moves) :
    s.sub_boards_won.getD 1 0 ≠ 3 ∧ s.sub_boards_won.getD 2 0 ≠ 3 := by
  unfold SuperTicTacToe.get_moves at hm
  split at hm
  · exact absurd hm (List.not_mem_nil m)
  · rename_i hg
    push_neg at hg
    exact hg

/-- Legal play preserves the shape and sanity of the win counters. -/
theorem sttt_reachable_invariant (s : SuperTicTacToe) (h : s.Reachable) :
    s.sub_boards_won.length = 3 ∧ s.WonOk := by
  induction h with
  | init => exact ⟨rfl, by decide⟩
  | step s m s' _ hm hdo ih =>
    obtain ⟨hlen, hle1, hle2, _⟩ := ih
    obtain ⟨hne1, hne2⟩ := sttt_mem_get_moves_won s m hm
    unfold SuperTicTacToe.do_move at hdo
    split at hdo
    · have hs' : s' = if (s.mark m.1 m.2).wins_sub_board (s.mark m.1 m.2).player_just_moved m.1
          then (s.mark m.1 m.2).add_win else (s.mark m.1 m.2) := by
        exact (Option.some.injEq _ _).mp hdo.symm
      have hmark_won : (s.mark m.1 m.2).sub_boards_won = s.sub_boards_won := rfl
      split at hs'
      · -- the mover's counter is incremented
        subst hs'
        have hw' : (s.mark m.1 m.2).add_win.sub_boards_won =
            s.sub_boards_won.set (s.mark m.1 m.2).player_just_moved
              (s.sub_boards_won.getD (s.mark m.1 m.2).player_just_moved 0 + 1) := rfl
        rw [SuperTicTacToe.WonOk, hw', List.length_set]
        set p' := (s.mark m.1 m.2).player_just_moved with hp'
        by_cases h1 : p' = 1
        · rw [h1]
          rw [getD_set_same (by omega), getD_set_other (by omega)]
          omega
        · by_cases h2 : p' = 2
          · rw [h2]
            rw [getD_set_same (by omega), getD_set_other (by omega)]
            omega
          · rw [getD_set_other h1, getD_set_other h2]
            exact ⟨hlen, by omega, by omega, by omega⟩
      · subst hs'
        rw [SuperTicTacToe.WonOk, hmark_won]
        exact ⟨hlen, by omega, by omega, by omega⟩
    · exact absurd hdo (Option.noConfusion)

/-- On a full well-formed board every square holds mark 1 or 2. -/
theorem ttt_terminal_entries (s : TicTacToe) (hlen : s.board.length = 9)
    (hval : ∀ v ∈ s.board, v ≤ 2) (hterm : s.get_moves = []) :
    ∀ i, i < 9 → s.board.getD i 9 = 1 ∨ s.board.getD i 9 = 2 := by
  intro i hi
  unfold TicTacToe.get_moves at hterm
  have hne := List.filter_eq_nil_iff.mp hterm i (List.mem_range.mpr hi)
  have hilt : i < s.board.length := by omega
  have hgd9 : s.board.getD i 9 = s.board[i] := by
    simp [List.getD_eq_getElem?_getD, List.getElem?_eq_getElem hilt]
  have hgd1 : s.board.getD i 1 = s.board[i] := by
    simp [List.getD_eq_getElem?_getD, List.getElem?_eq_getElem hilt]
  have hle : s.board[i] ≤ 2 := hval _ (List.getElem_mem hilt)
  simp only [decide_eq_true_eq] at hne
  omega

/-- C9: at every terminal position and for each player p in {1, 2}, the two
results exist and satisfy `result(p) + result(3 - p) = 1`, each summand lying
in {0, 1/2, 1}.  For `TicTacToe` this holds at every well-formed full board;
for `SuperTicTacToe` every reachable state satisfies the win-counter sanity
invariant `WonOk`, and `WonOk` states have zero-sum results. -/
theorem claim_C9_result_symmetry :
    (∀ (s : TicTacToe) (p : Nat), s.wf → s.get_moves = [] → p = 1 ∨ p = 2 →
      ∃ a b, s.get_result p = some a ∧ s.get_result (3 - p) = some b ∧
        a + b = 1 ∧ (a = 0 ∨ a = 1 / 2 ∨ a = 1) ∧ (b = 0 ∨ b = 1 / 2 ∨ b = 1)) ∧
    (∀ s : SuperTicTacToe, s.Reachable → s.WonOk) ∧
    (∀ (s : SuperTicTacToe) (p : Nat), s.WonOk → s.get_moves = [] → p = 1 ∨ p = 2 →
      s.get_result p + s.get_result (3 - p) = 1 ∧
        (s.get_result p = 0 ∨ s.get_result p = 1 / 2 ∨ s.get_result p = 1) ∧
        (s.get_result (3 - p) = 0 ∨ s.get_result (3 - p) = 1 / 2 ∨
          s.get_result (3 - p) = 1)) := by
  refine ⟨?_, ?_, ?_⟩
  · intro s p hwf hterm hp
    obtain ⟨hlen, hval, _⟩ := hwf
    have hent := ttt_terminal_entries s hlen hval hterm
    cases hfind : win_lines.find? (fun t =>
        decide (s.board.getD t.1 9 = s.board.getD t.2.1 9 ∧
                s.board.getD t.2.1 9 = s.board.getD t.2.2 9)) with
    | none =>
      refine ⟨1 / 2, 1 / 2, ?_, ?_, by norm_num, by norm_num, by norm_num⟩ <;>
        · unfold TicTacToe.get_result
          rw [hfind, hterm]
          simp
    | some t =>
      have hmemt := List.mem_of_find?_eq_some hfind
      have ht1 : t.1 ≤ 8 := by
        have hall : ∀ x ∈ win_lines, x.1 ≤ 8 := by decide
        exact hall t hmemt
      have hv := hent t.1 (by omega)
      rcases hp with rfl | rfl
      · rcases hv with hv | hv
        · refine ⟨1, 0, ?_, ?_, by norm_num, by norm_num, by norm_num⟩ <;>
            · unfold TicTacToe.get_result
              rw [hfind]
              simp only [List.getD_eq_getElem?_getD] at hv
              simp [hv]
        · refine ⟨0, 1, ?_, ?_, by norm_num, by norm_num, by norm_num⟩ <;>
            · unfold TicTacToe.get_result
              rw [hfind]
              simp only [List.getD_eq_getElem?_getD] at hv
              simp [hv]
      · rcases hv with hv | hv
        · refine ⟨0, 1, ?_, ?_, by norm_num, by norm_num, by norm_num⟩ <;>
            · unfold TicTacToe.get_result
              rw [hfind]
              simp only [List.getD_eq_getElem?_getD] at hv
              simp [hv]
        · refine ⟨1, 0, ?_, ?_, by norm_num, by norm_num, by norm_num⟩ <;>
            · unfold TicTacToe.get_result
              rw [hfind]
              simp only [List.getD_eq_getElem?_getD] at hv
              simp [hv]
  · exact fun s h => (sttt_reachable_invariant s h).2
  · intro s p hok _ hp
    obtain ⟨h1, h2, h3⟩ := hok
    rcases hp with rfl | rfl
    all_goals
      unfold SuperTicTacToe.get_result
      norm_num
      split_ifs
      all_goals simp_all
      all_goals norm_num

/-- C9 witness: the three parts of the symmetry theorem applied at a concrete
drawn tic-tac-toe board, at the initial super board, and at a finished super
board. -/
theorem claim_C9_witness :
    (∃ a b, dTTT.get_result 1 = some a ∧ dTTT.get_result (3 - 1) = some b ∧
      a + b = 1 ∧ (a = 0 ∨ a = 1 / 2 ∨ a = 1) ∧ (b = 0 ∨ b = 1 / 2 ∨ b = 1)) ∧
    SuperTicTacToe.init.WonOk ∧
    (sWon.get_result 1 + sWon.get_result (3 - 1) = 1 ∧
      (sWon.get_result 1 = 0 ∨ sWon.get_result 1 = 1 / 2 ∨ sWon.get_result 1 = 1) ∧
      (sWon.get_result (3 - 1) = 0 ∨ sWon.get_result (3 - 1) = 1 / 2 ∨
        sWon.get_result (3 - 1) = 1)) :=
  ⟨claim_C9_result_symmetry.1 dTTT 1 (by decide) (by decide) (Or.inl rfl),
   claim_C9_result_symmetry.2.1 SuperTicTacToe.init SuperTicTacToe.Reachable.init,
   claim_C9_result_symmetry.2.2 sWon 1 (by decide) (by decide) (Or.inl rfl)⟩

theorem maxStep_le_left {α β : Type} [LinearOrder β] (key : α → β) (b y : α) :
    key b ≤ key (maxStep key b y) := by
  unfold maxStep
  split
  · assumption
  · exact le_refl _

theorem maxStep_le_right {α β : Type} [LinearOrder β] (key : α → β) (b y : α) :
    key y ≤ key (maxStep key b y) := by
  unfold maxStep
  split
  · exact le_refl _
  · exact le_of_not_le (by assumption)

theorem foldl_maxStep_mem {α β : Type} [LinearOrder β] (key : α → β) :
    ∀ (xs : List α) (b : α), xs.foldl (maxStep key) b = b ∨ xs.foldl (maxStep key) b ∈ xs := by
  intro xs
  induction xs with
  | nil => intro b; left; rfl
  | cons x xs ih =>
    intro b
    rcases ih (maxStep key b x) with h | h
    · rw [List.foldl_cons, h]
      unfold maxStep
      split
      · right; exact List.mem_cons_self x xs
      · left; rfl
    · right
      rw [List.foldl_cons]
      exact List.mem_cons_of_mem x h

theorem foldl_maxStep_le {α β : Type} [LinearOrder β] (key : α → β) :
    ∀ (xs : List α) (b : α),
      key b ≤ key (xs.foldl (maxStep key) b) ∧
      ∀ x ∈ xs, key x ≤ key (xs.foldl (maxStep key) b) := by
  intro xs
  induction xs with
  | nil => intro b; exact ⟨le_refl _, by simp⟩
  | cons x xs ih =>
    intro b
    obtain ⟨ih1, ih2⟩ := ih (maxStep key b x)
    refine ⟨le_trans (maxStep_le_left key b x) ih1, ?_⟩
    intro y hy
    rcases List.mem_cons.mp hy with rfl | hy
    · exact le_trans (maxStep_le_right key b y) ih1
    · exact ih2 y hy

theorem foldl_maxStep_rightmost {α β : Type} [LinearOrder β] (key : α → β) :
    ∀ (xs : List α) (b : α),
      (xs.foldl (maxStep key) b = b ∧ ∀ y ∈ xs, key y < key b) ∨
      (∃ l1 l2, xs = l1 ++ (xs.foldl (maxStep key) b) :: l2 ∧
        ∀ y ∈ l2, key y < key (xs.foldl (maxStep key) b)) := by
  intro xs
  induction xs with
  | nil => intro b; left; exact ⟨rfl, by simp⟩
  | cons x xs ih =>
    intro b
    rw [List.foldl_cons]
    rcases ih (maxStep key b x) with ⟨h1, h2⟩ | ⟨l1, l2, h1, h2⟩
    · by_cases hbx : key b ≤ key x
      · right
        refine ⟨[], xs, ?_, ?_⟩
        · rw [h1]; unfold maxStep; rw [if_pos hbx]; simp
        · intro y hy
          rw [h1]
          exact h2 y hy
      · left
        have hmb : maxStep key b x = b := by unfold maxStep; rw [if_neg hbx]
        have h1' : List.foldl (maxStep key) (maxStep key b x) xs = b := h1.trans hmb
        rw [hmb] at h2
        refine ⟨h1', ?_⟩
        intro y hy
        rcases List.mem_cons.mp hy with rfl | hy
        · exact lt_of_not_le hbx
        · exact h2 y hy
    · right
      exact ⟨x :: l1, l2, by rw [List.cons_append, ← h1], h2⟩

theorem argmaxLast_mem {α β : Type} [LinearOrder β] {key : α → β} {l : List α} {a : α}
    (h : argmaxLast key l = some a) : a ∈ l := by
  cases l with
  | nil => cases h
  | cons x xs =>
    simp only [argmaxLast, Option.some.injEq] at h
    subst h
    rcases foldl_maxStep_mem key xs x with h2 | h2
    · rw [h2]; exact List.mem_cons_self x xs
    · exact List.mem_cons_of_mem x h2

theorem argmaxLast_le {α β : Type} [LinearOrder β] {key : α → β} {l : List α} {a : α}
    (h : argmaxLast key l = some a) : ∀ x ∈ l, key x ≤ key a := by
  cases l with
  | nil => cases h
  | cons x xs =>
    simp only [argmaxLast, Option.some.injEq] at h
    subst h
    intro y hy
    obtain ⟨h1, h2⟩ := foldl_maxStep_le key xs x
    rcases List.mem_cons.mp hy with rfl | hy
    · exact h1
    · exact h2 y hy

theorem argmaxLast_rightmost {α β : Type} [LinearOrder β] {key : α → β} {l : List α} {a : α}
    (h : argmaxLast key l = some a) :
    ∃ l1 l2, l = l1 ++ a :: l2 ∧ ∀ y ∈ l2, key y < key a := by
  cases l with
  | nil => cases h
  | cons x xs =>
    simp only [argmaxLast, Option.some.injEq] at h
    subst h
    rcases foldl_maxStep_rightmost key xs x with ⟨h1, h2⟩ | ⟨l1, l2, h1, h2⟩
    · refine ⟨[], xs, ?_, ?_⟩
      · rw [h1]; rfl
      · rw [h1]; exact h2
    · exact ⟨x :: l1, l2, by rw [List.cons_append, ← h1], h2⟩

theorem argmaxLast_isSome {α β : Type} [LinearOrder β] (key : α → β) (l : List α)
    (h : l ≠ []) : (argmaxLast key l).isSome = true := by
  cases l with
  | nil => exact absurd rfl h
  | cons x xs => rfl

theorem insertAsc_ne_nil {α β : Type} [LinearOrder β] (key : α → β) (x : α) (l : List α) :
    insertAsc key x l ≠ [] := by
  cases l with
  | nil => simp [insertAsc]
  | cons y ys =>
    unfold insertAsc
    split <;> simp

theorem head?_insertAsc {α β : Type} [LinearOrder β] (key : α → β) (x : α) (l : List α) :
    (insertAsc key x l).head? = some x ∨ (insertAsc key x l).head? = l.head? := by
  cases l with
  | nil => left; rfl
  | cons y ys =>
    unfold insertAsc
    split
    · right; rfl
    · left; rfl

theorem chain'_le_getLast? {α β : Type} [LinearOrder β] (key : α → β) :
    ∀ (ys : List α) (y : α), List.Chain' (fun a b => key a ≤ key b) (y :: ys) →
      ∃ w, (y :: ys).getLast? = some w ∧ key y ≤ key w := by
  intro ys
  induction ys with
  | nil => intro y _; exact ⟨y, rfl, le_refl _⟩
  | cons z zs ih =>
    intro y hch
    rw [List.chain'_cons] at hch
    obtain ⟨w, hw, hle⟩ := ih z hch.2
    exact ⟨w, by rw [List.getLast?_cons_cons]; exact hw, le_trans hch.1 hle⟩

theorem chain'_insertAsc {α β : Type} [LinearOrder β] (key : α → β) (x : α) :
    ∀ (l : List α), List.Chain' (fun a b => key a ≤ key b) l →
      List.Chain' (fun a b => key a ≤ key b) (insertAsc key x l) := by
  intro l
  induction l with
  | nil => intro _; exact List.chain'_singleton x
  | cons y ys ih =>
    intro hch
    have hch' := (List.chain'_cons'.mp hch).2
    unfold insertAsc
    split
    · rename_i hyx
      rw [List.chain'_cons']
      refine ⟨?_, ih hch'⟩
      intro z hz
      rcases head?_insertAsc key x ys with hh | hh
      · rw [hh] at hz
        simp only [Option.mem_def, Option.some.injEq] at hz
        subst hz
        exact hyx
      · rw [hh] at hz
        exact (List.chain'_cons'.mp hch).1 z hz
    · rename_i hyx
      rw [List.chain'_cons]
      exact ⟨le_of_lt (lt_of_not_le hyx), hch⟩

theorem getLast?_insertAsc {α β : Type} [LinearOrder β] (key : α → β) (x : α) :
    ∀ (l : List α), List.Chain' (fun a b => key a ≤ key b) l →
      (insertAsc key x l).getLast? =
        some ((l.getLast?).elim x (fun y => maxStep key y x)) := by
  intro l
  induction l with
  | nil => intro _; rfl
  | cons y ys ih =>
    intro hch
    have hch' : List.Chain' (fun a b => key a ≤ key b) ys := (List.chain'_cons'.mp hch).2
    unfold insertAsc
    split
    · rename_i hyx
      have hih := ih hch'
      cases ys with
      | nil =>
        simp [insertAsc, maxStep, hyx]
      | cons z zs =>
        rw [List.getLast?_cons, hih]
        simp only [Option.getD_some]
        rw [List.getLast?_cons_cons]
    · rename_i hyx
      obtain ⟨w, hw, hle⟩ := chain'_le_getLast? key ys y hch
      rw [List.getLast?_cons_cons, hw]
      have hwx : ¬ key w ≤ key x := fun hc => hyx (le_trans hle hc)
      simp only [Option.elim]
      unfold maxStep
      rw [if_neg hwx]

theorem getLast?_foldl_insertAsc {α β : Type} [LinearOrder β] (key : α → β) :
    ∀ (l acc : List α), List.Chain' (fun a b => key a ≤ key b) acc →
      (l.foldl (fun a x => insertAsc key x a) acc).getLast? =
        l.foldl (fun o x => some (o.elim x (fun y => maxStep key y x))) acc.getLast? := by
  intro l
  induction l with
  | nil => intro acc _; rfl
  | cons x xs ih =>
    intro acc hch
    rw [List.foldl_cons, List.foldl_cons]
    rw [ih _ (chain'_insertAsc key x acc hch)]
    rw [getLast?_insertAsc key x acc hch]

theorem foldl_optstep_some {α β : Type} [LinearOrder β] (key : α → β) :
    ∀ (xs : List α) (b : α),
      xs.foldl (fun o x => some (o.elim x (fun y => maxStep key y x))) (some b) =
        some (xs.foldl (maxStep key) b) := by
  intro xs
  induction xs with
  | nil => intro b; rfl
  | cons x xs ih =>
    intro b
    rw [List.foldl_cons, List.foldl_cons]
    exact ih (maxStep key b x)

/-- The faithfulness bridge for Python's `sorted(l, key=key)[-1]`: the last
element of the stable ascending sort is the rightmost maximum of the list. -/
theorem pySorted_getLast?_eq_argmaxLast {α β : Type} [LinearOrder β] (key : α → β)
    (l : List α) : (pySorted key l).getLast? = argmaxLast key l := by
  cases l with
  | nil => rfl
  | cons x xs =>
    unfold pySorted argmaxLast
    rw [getLast?_foldl_insertAsc key (x :: xs) [] List.chain'_nil]
    rw [List.foldl_cons]
    exact foldl_optstep_some key xs x

/-- C6: whenever a node has at least one child (as in selection, which runs
only when the node also has no untried moves), `select_child` returns a child
that maximizes the UCB1 score
`c.wins / c.visits + sqrt(2 * ln(parent.visits) / c.visits)` (exploration
constant 1): the returned child's score is at least the score of every
sibling. -/
theorem claim_C6_select_child_ucb {μ : Type} (t : STree μ) (hc : t.children ≠ []) :
    ∃ c, select_child t = some c ∧ c ∈ t.children ∧
      ∀ sibling ∈ t.children,
        ucb_key t.info.visits sibling.info ≤ ucb_key t.info.visits c.info := by
  unfold select_child
  rw [pySorted_getLast?_eq_argmaxLast]
  obtain ⟨c, hsome⟩ := Option.isSome_iff_exists.mp
    (argmaxLast_isSome (fun c => ucb_key t.info.visits c.info) t.children hc)
  exact ⟨c, hsome, argmaxLast_mem hsome, argmaxLast_le hsome⟩

/-- C6 witness: `select_child` applied at a one-child node built by hand. -/
theorem claim_C6_witness :
    ∃ c, select_child (STree.node ⟨none, 0, 1, [], 2⟩
        [STree.node ⟨some 0, (1 : ℚ), 1, ([] : List Nat), 1⟩ []]) = some c ∧
      c ∈ (STree.node ⟨none, 0, 1, [], 2⟩
        [STree.node ⟨some 0, (1 : ℚ), 1, ([] : List Nat), 1⟩ []]).children ∧
      ∀ sibling ∈ (STree.node ⟨none, 0, 1, [], 2⟩
          [STree.node ⟨some 0, (1 : ℚ), 1, ([] : List Nat), 1⟩ []]).children,
        ucb_key (STree.node ⟨none, 0, 1, [], 2⟩
          [STree.node ⟨some 0, (1 : ℚ), 1, ([] : List Nat), 1⟩ []]).info.visits sibling.info ≤
        ucb_key (STree.node ⟨none, 0, 1, [], 2⟩
          [STree.node ⟨some 0, (1 : ℚ), 1, ([] : List Nat), 1⟩ []]).info.visits c.info :=
  claim_C6_select_child_ucb _ (List.cons_ne_nil _ _)

theorem STree.depth_node {μ : Type} (info : NodeInfo μ) (cs : List (STree μ)) :
    (STree.node info cs).depth = 1 + STree.depthList cs := by
  rw [STree.depth]

theorem STree.depth_pos {μ : Type} (t : STree μ) : 1 ≤ t.depth := by
  obtain ⟨info, cs⟩ := t
  rw [STree.depth_node]
  omega

theorem STree.depthList_le {μ : Type} :
    ∀ (cs : List (STree μ)) (c : STree μ), c ∈ cs → c.depth ≤ STree.depthList cs := by
  intro cs
  induction cs with
  | nil => intro c hc; cases hc
  | cons d ds ih =>
    intro c hc
    rw [STree.depthList]
    rcases List.mem_cons.mp hc with rfl | hc
    · exact le_max_left _ _
    · exact le_trans (ih c hc) (le_max_right _ _)

theorem argmaxIdxLast_lt {α β : Type} [LinearOrder β] (key : α → β) (l : List α)
    (h : l ≠ []) : ∃ i, argmaxIdxLast key l = some i ∧ i < l.length := by
  have hne : l.enum ≠ [] := by
    intro hc
    apply h
    have hlen := congrArg List.length hc
    rw [List.enum_length] at hlen
    exact List.length_eq_zero.mp hlen
  obtain ⟨p, hp⟩ := Option.isSome_iff_exists.mp
    (argmaxLast_isSome (fun q => key q.2) l.enum hne)
  have hget : l[p.1]? = some p.2 := List.mem_enum_iff_getElem?.mp (argmaxLast_mem hp)
  have hlt : p.1 < l.length := by
    by_contra hge
    rw [List.getElem?_eq_none (Nat.le_of_not_lt hge)] at hget
    cases hget
  exact ⟨p.1, by unfold argmaxIdxLast; rw [hp]; rfl, hlt⟩

theorem getD_mod_mem {α : Type} (m0 : α) (mrest : List α) (n : Nat) :
    (m0 :: mrest).getD (n % (m0 :: mrest).length) m0 ∈ m0 :: mrest := by
  have hlt : n % (m0 :: mrest).length < (m0 :: mrest).length :=
    Nat.mod_lt _ (by simp)
  rw [List.getD_eq_getElem?_getD, List.getElem?_eq_getElem hlt]
  simp only [Option.getD_some]
  exact List.getElem_mem hlt

/-- One `search` iteration body transforms the tree exactly as the `Backprop`
relation describes, with the terminal state and start path it returns, as long
as the recursion fuel covers the tree depth. -/
theorem simulate_backprop {σ μ β : Type} [DecidableEq μ] [LinearOrder β]
    (g : Game σ μ) (key : Nat → NodeInfo μ → β) (rng : Nat → Nat) (rfuel : Nat) :
    ∀ (fuel : Nat) (t : STree μ) (s : σ) (k : Nat), t.depth ≤ fuel →
      Backprop g (simulate g key rng rfuel fuel t s k).2.1
        (simulate g key rng rfuel fuel t s k).2.2.2 t
        (simulate g key rng rfuel fuel t s k).1 := by
  intro fuel
  induction fuel with
  | zero =>
    intro t s k hd
    exact absurd (le_trans (STree.depth_pos t) hd) (by omega)
  | succ fuel ih =>
    intro t s k hd
    obtain ⟨info, cs⟩ := t
    by_cases hsel : info.untried_moves.isEmpty ∧ ¬cs.isEmpty
    · -- Select
      have hcs : cs ≠ [] := by
        intro hc
        exact hsel.2 (by rw [hc]; rfl)
      have hun : info.untried_moves = [] := List.isEmpty_iff.mp hsel.1
      obtain ⟨i, hi, hilt⟩ := argmaxIdxLast_lt (fun c => key info.visits c.info) cs hcs
      have hgetD : cs.getD i (STree.node info []) = cs[i] := by
        simp [List.getD_eq_getElem?_getD, List.getElem?_eq_getElem hilt]
      have hget : cs[i]? = some (cs.getD i (STree.node info [])) := by
        rw [hgetD]
        exact List.getElem?_eq_getElem hilt
      have hdep : (cs.getD i (STree.node info [])).depth ≤ fuel := by
        have h1 : (cs.getD i (STree.node info [])).depth ≤ STree.depthList cs := by
          rw [hgetD]
          exact STree.depthList_le cs _ (List.getElem_mem hilt)
        rw [STree.depth_node] at hd
        omega
      simp only [simulate]
      rw [if_pos hsel, hi]
      simp only [Option.getD_some]
      exact Backprop.select info cs i _ _ _ hun hget (ih _ _ k hdep)
    · -- Expansion was either performed on an untried move or skipped (leaf)
      simp only [simulate]
      rw [if_neg hsel]
      split
      · rename_i hu
        have hcs : cs = [] := by
          by_contra hne
          exact hsel ⟨by rw [hu]; rfl, by simpa using hne⟩
        subst hcs
        exact Backprop.terminal info hu
      · rename_i m0 mrest hu
        rw [← hu]
        refine Backprop.expand info cs _ _ ?hne ?hm ?hmv ?hone ?hwin
        case hne => rw [hu]; exact List.cons_ne_nil _ _
        case hm => rw [hu]; exact getD_mod_mem m0 mrest (rng k)
        case hmv => rfl
        case hone => rfl
        case hwin => rfl

theorem backprop_info {σ μ : Type} [DecidableEq μ] {g : Game σ μ} {ts : σ}
    {p : List Nat} {t t' : STree μ} (h : Backprop g ts p t t') :
    t'.info.visits = t.info.visits + 1 ∧ t'.info.move = t.info.move ∧
    t'.info.player_just_moved = t.info.player_just_moved := by
  cases h <;> simp [STree.info, NodeInfo.update]

theorem backprop_children_ne_nil {σ μ : Type} [DecidableEq μ] {g : Game σ μ} {ts : σ}
    {p : List Nat} {t t' : STree μ} (h : Backprop g ts p t t')
    (hc : t.children ≠ [] ∨ t.info.untried_moves ≠ []) : t'.children ≠ [] := by
  cases h with
  | terminal info hu =>
    rcases hc with hc | hc
    · exact absurd rfl hc
    · exact absurd hu hc
  | expand info cs m cinfo h1 h2 h3 h4 h5 => simp [STree.children]
  | select info cs i c c' p' hun hget hsub =>
    simp only [STree.children, ne_eq, List.set_eq_nil_iff]
    intro hnil
    subst hnil
    cases i <;> cases hget

theorem backprop_children_moves {σ μ : Type} [DecidableEq μ] {g : Game σ μ} {ts : σ}
    {p : List Nat} {t t' : STree μ} (h : Backprop g ts p t t')
    (hm : ∀ c ∈ t.children, c.info.move.isSome) :
    ∀ c ∈ t'.children, c.info.move.isSome := by
  cases h with
  | terminal info hu => simpa using hm
  | expand info cs m cinfo h1 h2 h3 h4 h5 =>
    intro c hc
    simp only [STree.children] at hc hm
    rcases List.mem_append.mp hc with hc | hc
    · exact hm c hc
    · simp only [List.mem_singleton] at hc
      subst hc
      simp [STree.info, h3]
  | select info cs i c0 c' p' hun hget hsub =>
    intro c hc
    simp only [STree.children] at hc hm
    rcases List.mem_or_eq_of_mem_set hc with hc | rfl
    · exact hm c hc
    · rw [(backprop_info hsub).2.1]
      exact hm c0 (List.getElem?_mem hget)

theorem backprop_healthy {σ μ : Type} [DecidableEq μ] {g : Game σ μ} {ts : σ}
    {p : List Nat} {t t' : STree μ} (h : Backprop g ts p t t') (hh : Healthy t) :
    Healthy t' := by
  induction h with
  | terminal info hu =>
    exact Healthy.node _ [] (by simp) (by simp) (by simp)
  | expand info cs m cinfo h1 h2 h3 h4 h5 =>
    cases hh with
    | node _ _ hv hcv hch =>
      refine Healthy.node _ _ (fun _ => by simp [NodeInfo.update]) ?_ ?_
      · intro c hc
        rcases List.mem_append.mp hc with hc | hc
        · exact hcv c hc
        · simp only [List.mem_singleton] at hc
          subst hc
          simp [STree.info, h4]
      · intro c hc
        rcases List.mem_append.mp hc with hc | hc
        · exact hch c hc
        · simp only [List.mem_singleton] at hc
          subst hc
          exact Healthy.node _ [] (by simp) (by simp) (by simp)
  | select info cs i c0 c' p' hun hget hsub ih =>
    cases hh with
    | node _ _ hv hcv hch =>
      have hc0 : c0 ∈ cs := List.getElem?_mem hget
      refine Healthy.node _ _ (fun _ => by simp [NodeInfo.update]) ?_ ?_
      · intro c hc
        rcases List.mem_or_eq_of_mem_set hc with hc | rfl
        · exact hcv c hc
        · rw [(backprop_info hsub).1]
          omega
      · intro c hc
        rcases List.mem_or_eq_of_mem_set hc with hc | rfl
        · exact hch c hc
        · exact ih (hch c0 hc0)

theorem subtreeAt_cons {μ : Type} (info : NodeInfo μ) (cs : List (STree μ)) (j : Nat)
    (q : List Nat) :
    subtreeAt (STree.node info cs) (j :: q) = cs[j]?.bind (fun c => subtreeAt c q) := rfl

theorem backprop_subtree_isSome {σ μ : Type} [DecidableEq μ] {g : Game σ μ} {ts : σ}
    {p : List Nat} {t t' : STree μ} (h : Backprop g ts p t t') :
    ∀ q, (subtreeAt t q).isSome → (subtreeAt t' q).isSome := by
  induction h with
  | terminal info hu =>
    intro q hq
    match q with
    | [] => simp [subtreeAt]
    | j :: q' => simp [subtreeAt_cons] at hq
  | expand info cs m cinfo h1 h2 h3 h4 h5 =>
    intro q hq
    match q with
    | [] => simp [subtreeAt]
    | j :: q' =>
      rw [subtreeAt_cons] at hq ⊢
      cases hcj : cs[j]? with
      | none => rw [hcj] at hq; simp at hq
      | some c =>
        have hjl : j < cs.length := by
          by_contra hge
          rw [List.getElem?_eq_none (Nat.le_of_not_lt hge)] at hcj
          cases hcj
        rw [List.getElem?_append_left hjl, hcj]
        rw [hcj] at hq
        exact hq
  | select info cs i c0 c' p' hun hget hsub ih =>
    intro q hq
    match q with
    | [] => simp [subtreeAt]
    | j :: q' =>
      rw [subtreeAt_cons] at hq ⊢
      by_cases hij : j = i
      · subst hij
        have hjl : j < cs.length := by
          by_contra hge
          rw [List.getElem?_eq_none (Nat.le_of_not_lt hge)] at hget
          cases hget
        rw [hget] at hq
        rw [List.getElem?_set_self hjl]
        simp only [Option.some_bind] at hq ⊢
        exact ih q' hq
      · rw [List.getElem?_set_ne (fun hc => hij hc.symm)]
        exact hq

theorem backprop_path_isSome {σ μ : Type} [DecidableEq μ] {g : Game σ μ} {ts : σ}
    {p : List Nat} {t t' : STree μ} (h : Backprop g ts p t t') :
    (subtreeAt t' p).isSome := by
  induction h with
  | terminal info hu => simp [subtreeAt]
  | expand info cs m cinfo h1 h2 h3 h4 h5 =>
    rw [subtreeAt_cons, List.getElem?_concat_length]
    simp [subtreeAt]
  | select info cs i c0 c' p' hun hget hsub ih =>
    have hjl : i < cs.length := by
      by_contra hge
      rw [List.getElem?_eq_none (Nat.le_of_not_lt hge)] at hget
      cases hget
    rw [subtreeAt_cons, List.getElem?_set_self hjl]
    simpa using ih

theorem sum_map_set_add_one {α : Type} (f : α → Nat) :
    ∀ (l : List α) (i : Nat) (x c : α), l[i]? = some c → f x = f c + 1 →
      ((l.set i x).map f).sum = (l.map f).sum + 1 := by
  intro l
  induction l with
  | nil =>
    intro i x c hc _
    cases i <;> cases hc
  | cons a as ih =>
    intro i x c hc hf
    cases i with
    | zero =>
      rw [List.getElem?_cons_zero] at hc
      injection hc with hc
      subst hc
      simp only [List.set, List.map_cons, List.sum_cons]
      omega
    | succ i =>
      rw [List.getElem?_cons_succ] at hc
      simp only [List.set, List.map_cons, List.sum_cons, ih i x c hc hf]
      omega

theorem subtreeAt_nil {μ : Type} (t : STree μ) : subtreeAt t [] = some t := by
  cases t
  rfl

/-- Transfer of per-node visit conservation across one backpropagation:
if before the iteration every node's visits equal the sum of its children's
visits plus `cnt` of its path (`cnt q = 0` off the tree), then afterwards the
same holds with `cnt` incremented exactly at the backpropagation start path. -/
theorem backprop_conservation {σ μ : Type} [DecidableEq μ] {g : Game σ μ} {ts : σ}
    {p : List Nat} {t t' : STree μ} (h : Backprop g ts p t t') :
    ∀ cnt : List Nat → Nat,
      (∀ q info2 cs2, subtreeAt t q = some (STree.node info2 cs2) →
        info2.visits = (cs2.map (fun c => c.info.visits)).sum + cnt q) →
      (∀ q, cnt q ≠ 0 → (subtreeAt t q).isSome) →
      ∀ q info2 cs2, subtreeAt t' q = some (STree.node info2 cs2) →
        info2.visits = (cs2.map (fun c => c.info.visits)).sum +
          (cnt q + if q = p then 1 else 0) := by
  induction h with
  | terminal info hu =>
    intro cnt hc hv q info2 cs2 hq
    match q with
    | [] =>
      rw [subtreeAt_nil] at hq
      injection hq with hq
      injection hq with hi2 hcs2
      subst hi2
      subst hcs2
      have hroot := hc [] info [] (subtreeAt_nil _)
      simp only [List.map_nil, List.sum_nil] at hroot ⊢
      simp only [if_true]
      simp only [NodeInfo.update]
      omega
    | j :: q' =>
      rw [subtreeAt_cons] at hq
      simp at hq
  | expand info cs m cinfo h1 h2 h3 h4 h5 =>
    intro cnt hc hv q info2 cs2 hq
    match q with
    | [] =>
      rw [subtreeAt_nil] at hq
      injection hq with hq
      injection hq with hi2 hcs2
      subst hi2
      subst hcs2
      have hroot := hc [] info cs (subtreeAt_nil _)
      rw [List.map_append, List.sum_append]
      have hleaf : (STree.node cinfo ([] : List (STree μ))).info.visits = 1 := h4
      simp only [List.map_cons, List.map_nil, List.sum_cons, List.sum_nil, hleaf]
      rw [if_neg (by simp : ¬([] : List Nat) = [cs.length])]
      simp only [NodeInfo.update]
      omega
    | j :: q' =>
      rw [subtreeAt_cons] at hq
      by_cases hjl : j < cs.length
      · rw [List.getElem?_append_left hjl] at hq
        have horig : subtreeAt (STree.node info cs) (j :: q') =
            some (STree.node info2 cs2) := by
          rw [subtreeAt_cons]; exact hq
        have hmain := hc (j :: q') info2 cs2 horig
        have hne : ¬(j :: q' : List Nat) = [cs.length] := by
          intro hcq
          injection hcq with hj hq2
          omega
        rw [if_neg hne]
        omega
      · by_cases hje : j = cs.length
        · subst hje
          rw [List.getElem?_concat_length] at hq
          simp only [Option.some_bind] at hq
          match q' with
          | [] =>
            rw [subtreeAt_nil] at hq
            injection hq with hq
            injection hq with hi2 hcs2
            subst hi2
            subst hcs2
            have hcnt : cnt [cs.length] = 0 := by
              by_contra hcz
              have := hv [cs.length] hcz
              rw [subtreeAt_cons, List.getElem?_eq_none (le_refl cs.length)] at this
              simp at this
            rw [if_pos rfl, hcnt, h4]
            simp
          | x :: q'' =>
            rw [subtreeAt_cons] at hq
            simp at hq
        · rw [List.getElem?_eq_none (by simp; omega)] at hq
          simp at hq
  | select info cs i c0 c' p' hun hget hsub ih =>
    intro cnt hc hv q info2 cs2 hq
    have hil : i < cs.length := by
      by_contra hge
      rw [List.getElem?_eq_none (Nat.le_of_not_lt hge)] at hget
      cases hget
    match q with
    | [] =>
      rw [subtreeAt_nil] at hq
      injection hq with hq
      injection hq with hi2 hcs2
      subst hi2
      subst hcs2
      have hroot := hc [] info cs (subtreeAt_nil _)
      have hsum : ((cs.set i c').map (fun c => c.info.visits)).sum =
          (cs.map (fun c => c.info.visits)).sum + 1 :=
        sum_map_set_add_one _ cs i c' c0 hget (backprop_info hsub).1
      rw [hsum]
      rw [if_neg (by simp : ¬([] : List Nat) = i :: p')]
      simp only [NodeInfo.update]
      omega
    | j :: q' =>
      rw [subtreeAt_cons] at hq
      by_cases hij : j = i
      · subst hij
        rw [List.getElem?_set_self hil] at hq
        simp only [Option.some_bind] at hq
        have hc' : ∀ r i3 cs3, subtreeAt c0 r = some (STree.node i3 cs3) →
            i3.visits = (cs3.map (fun c => c.info.visits)).sum + cnt (j :: r) := by
          intro r i3 cs3 hr
          apply hc (j :: r)
          rw [subtreeAt_cons, hget]
          simpa using hr
        have hv' : ∀ r, cnt (j :: r) ≠ 0 → (subtreeAt c0 r).isSome := by
          intro r hr
          have hvv := hv (j :: r) hr
          rw [subtreeAt_cons, hget] at hvv
          simpa using hvv
        have hmain := ih (fun r => cnt (j :: r)) hc' hv' q' info2 cs2 hq
        by_cases hqp : q' = p'
        · rw [if_pos hqp] at hmain
          rw [if_pos (by rw [hqp])]
          exact hmain
        · rw [if_neg hqp] at hmain
          rw [if_neg (fun hc2 => hqp (by injection hc2))]
          exact hmain
      · rw [List.getElem?_set_ne (fun hc2 => hij hc2.symm)] at hq
        have horig : subtreeAt (STree.node info cs) (j :: q') =
            some (STree.node info2 cs2) := by
          rw [subtreeAt_cons]; exact hq
        have hmain := hc _ _ _ horig
        have hne : ¬(j :: q') = i :: p' := by
          intro hc2
          injection hc2 with hj _
          exact hij hj
        rw [if_neg hne]
        omega

section RunLemmas

variable {σ μ β : Type} [DecidableEq μ] [LinearOrder β]
variable (g : Game σ μ) (key : Nat → NodeInfo μ → β) (rng : Nat → Nat) (rfuel : Nat) (s0 : σ)

theorem iteration_backprop (t : STree μ) (k : Nat) :
    ∃ ts, Backprop g ts (iteration g key rng rfuel s0 t k).2.2 t
      (iteration g key rng rfuel s0 t k).1 :=
  ⟨_, simulate_backprop g key rng rfuel t.depth t (g.clone s0) k (le_refl _)⟩

theorem run_root_visits : ∀ n, (run g key rng rfuel s0 n).1.info.visits = n := by
  intro n
  induction n with
  | zero => rfl
  | succ n ih =>
    obtain ⟨ts, hb⟩ := iteration_backprop g key rng rfuel s0
      (run g key rng rfuel s0 n).1 (run g key rng rfuel s0 n).2.1
    have heq : (run g key rng rfuel s0 (n + 1)).1 =
        (iteration g key rng rfuel s0 (run g key rng rfuel s0 n).1
          (run g key rng rfuel s0 n).2.1).1 := rfl
    rw [heq, (backprop_info hb).1, ih]

theorem run_healthy : ∀ n, Healthy (run g key rng rfuel s0 n).1 := by
  intro n
  induction n with
  | zero => exact Healthy.node _ [] (by simp) (by simp) (by simp)
  | succ n ih =>
    obtain ⟨ts, hb⟩ := iteration_backprop g key rng rfuel s0
      (run g key rng rfuel s0 n).1 (run g key rng rfuel s0 n).2.1
    have heq : (run g key rng rfuel s0 (n + 1)).1 =
        (iteration g key rng rfuel s0 (run g key rng rfuel s0 n).1
          (run g key rng rfuel s0 n).2.1).1 := rfl
    rw [heq]
    exact backprop_healthy hb ih

theorem run_children_moves :
    ∀ n, ∀ c ∈ (run g key rng rfuel s0 n).1.children, c.info.move.isSome := by
  intro n
  induction n with
  | zero =>
    intro c hc
    exact absurd hc (List.not_mem_nil c)
  | succ n ih =>
    obtain ⟨ts, hb⟩ := iteration_backprop g key rng rfuel s0
      (run g key rng rfuel s0 n).1 (run g key rng rfuel s0 n).2.1
    have heq : (run g key rng rfuel s0 (n + 1)).1 =
        (iteration g key rng rfuel s0 (run g key rng rfuel s0 n).1
          (run g key rng rfuel s0 n).2.1).1 := rfl
    rw [heq]
    exact backprop_children_moves hb ih

theorem run_children_ne_nil (hmv : g.get_moves s0 ≠ []) :
    ∀ n, 1 ≤ n → (run g key rng rfuel s0 n).1.children ≠ [] := by
  intro n
  induction n with
  | zero => omega
  | succ n ih =>
    intro _
    obtain ⟨ts, hb⟩ := iteration_backprop g key rng rfuel s0
      (run g key rng rfuel s0 n).1 (run g key rng rfuel s0 n).2.1
    have heq : (run g key rng rfuel s0 (n + 1)).1 =
        (iteration g key rng rfuel s0 (run g key rng rfuel s0 n).1
          (run g key rng rfuel s0 n).2.1).1 := rfl
    rw [heq]
    refine backprop_children_ne_nil hb ?_
    cases n with
    | zero =>
      right
      exact hmv
    | succ n => exact Or.inl (ih (by omega))

theorem run_paths_valid :
    ∀ n, ∀ q ∈ (run g key rng rfuel s0 n).2.2,
      (subtreeAt (run g key rng rfuel s0 n).1 q).isSome := by
  intro n
  induction n with
  | zero =>
    intro q hq
    exact absurd hq (List.not_mem_nil q)
  | succ n ih =>
    intro q hq
    obtain ⟨ts, hb⟩ := iteration_backprop g key rng rfuel s0
      (run g key rng rfuel s0 n).1 (run g key rng rfuel s0 n).2.1
    have heq : (run g key rng rfuel s0 (n + 1)).1 =
        (iteration g key rng rfuel s0 (run g key rng rfuel s0 n).1
          (run g key rng rfuel s0 n).2.1).1 := rfl
    have heqL : (run g key rng rfuel s0 (n + 1)).2.2 =
        (run g key rng rfuel s0 n).2.2 ++
          [(iteration g key rng rfuel s0 (run g key rng rfuel s0 n).1
            (run g key rng rfuel s0 n).2.1).2.2] := rfl
    rw [heqL] at hq
    rw [heq]
    rcases List.mem_append.mp hq with hq | hq
    · exact backprop_subtree_isSome hb q (ih q hq)
    · simp only [List.mem_singleton] at hq
      subst hq
      exact backprop_path_isSome hb

theorem run_conservation :
    ∀ n q info cs,
      subtreeAt (run g key rng rfuel s0 n).1 q = some (STree.node info cs) →
      info.visits = (cs.map (fun c => c.info.visits)).sum +
        (run g key rng rfuel s0 n).2.2.count q := by
  intro n
  induction n with
  | zero =>
    intro q info cs hq
    match q with
    | [] =>
      rw [show (run g key rng rfuel s0 0).1 = STree.node (Node.make g none s0) [] from rfl,
        subtreeAt_nil] at hq
      injection hq with hq
      injection hq with h1 h2
      subst h1
      subst h2
      simp only [Node.make, List.map_nil, List.sum_nil]
      rw [show (run g key rng rfuel s0 0).2.2 = ([] : List (List Nat)) from rfl,
        List.count_nil]
    | j :: q' =>
      rw [show (run g key rng rfuel s0 0).1 = STree.node (Node.make g none s0) [] from rfl,
        subtreeAt_cons] at hq
      simp at hq
  | succ n ih =>
    intro q info cs hq
    obtain ⟨ts, hb⟩ := iteration_backprop g key rng rfuel s0
      (run g key rng rfuel s0 n).1 (run g key rng rfuel s0 n).2.1
    have heq : (run g key rng rfuel s0 (n + 1)).1 =
        (iteration g key rng rfuel s0 (run g key rng rfuel s0 n).1
          (run g key rng rfuel s0 n).2.1).1 := rfl
    have heqL : (run g key rng rfuel s0 (n + 1)).2.2 =
        (run g key rng rfuel s0 n).2.2 ++
          [(iteration g key rng rfuel s0 (run g key rng rfuel s0 n).1
            (run g key rng rfuel s0 n).2.1).2.2] := rfl
    rw [heq] at hq
    have hmain := backprop_conservation hb
      (fun r => (run g key rng rfuel s0 n).2.2.count r)
      (fun r i2 cs2 hr => ih r i2 cs2 hr)
      (fun r hr => run_paths_valid g key rng rfuel s0 n r
        (List.count_pos_iff.mp (Nat.pos_of_ne_zero hr)))
      q info cs hq
    rw [heqL, List.count_append]
    have hcnt1 : List.count q
        [(iteration g key rng rfuel s0 (run g key rng rfuel s0 n).1
          (run g key rng rfuel s0 n).2.1).2.2] =
        if q = (iteration g key rng rfuel s0 (run g key rng rfuel s0 n).1
          (run g key rng rfuel s0 n).2.1).2.2 then 1 else 0 := by
      rw [List.count_singleton]
      by_cases hqp : q = (iteration g key rng rfuel s0 (run g key rng rfuel s0 n).1
          (run g key rng rfuel s0 n).2.1).2.2
      · simp [hqp]
      · simp [hqp, Ne.symm hqp]
    rw [hcnt1]
    exact hmain

end RunLemmas

/-- C5: each search iteration transforms the tree exactly as described by
`Backprop`: backpropagation starts at the node produced by expansion (a fresh
child with 1 visit and `result` wins, its move removed from the parent's
untried list), or at the selected node when expansion was skipped (a leaf with
no untried moves and no children); that node and each of its ancestors up to
and including the root gain exactly 1 visit and exactly
`get_result ts player_just_moved` wins, where `ts` is the terminal working
state returned by the rollout and `player_just_moved` is each node's own
viewpoint; no other node changes. -/
theorem claim_C5_backpropagation {σ μ β : Type} [DecidableEq μ] [LinearOrder β]
    (g : Game σ μ) (key : Nat → NodeInfo μ → β) (rng : Nat → Nat) (rfuel : Nat)
    (t : STree μ) (s : σ) (k : Nat) :
    Backprop g (simulate g key rng rfuel t.depth t s k).2.1
      (simulate g key rng rfuel t.depth t s k).2.2.2 t
      (simulate g key rng rfuel t.depth t s k).1 :=
  simulate_backprop g key rng rfuel t.depth t s k (le_refl _)

theorem subtree_healthy {μ : Type} :
    ∀ (q : List Nat) (t t' : STree μ), Healthy t → subtreeAt t q = some t' →
      Healthy t' := by
  intro q
  induction q with
  | nil =>
    intro t t' h hq
    rw [subtreeAt_nil] at hq
    injection hq with hq
    rw [← hq]
    exact h
  | cons j q' ih =>
    intro t t' h hq
    obtain ⟨info, cs⟩ := t
    rw [subtreeAt_cons] at hq
    cases hcj : cs[j]? with
    | none => rw [hcj] at hq; cases hq
    | some c =>
      rw [hcj] at hq
      simp only [Option.some_bind] at hq
      cases h with
      | node _ _ hv hcv hch =>
        exact ih c t' (hch c (List.getElem?_mem hcj)) hq

/-- C7: in every tree `search` builds (after any number of iterations), every
node that has at least one child — exactly the nodes on which `select_child`
can be invoked during the next iteration's selection phase — has at least one
visit, and so does each of its children.  Hence `c.wins / c.visits` and
`log(self.visits) / c.visits` never divide by zero and never take `log 0`,
and a child with zero visits is never selected (no such child exists). -/
theorem claim_C7_ucb_denominators {σ μ β : Type} [DecidableEq μ] [LinearOrder β]
    (g : Game σ μ) (key : Nat → NodeInfo μ → β) (rng : Nat → Nat) (rfuel : Nat)
    (s0 : σ) (n : Nat) (q : List Nat) (info : NodeInfo μ) (cs : List (STree μ))
    (hq : subtreeAt (run g key rng rfuel s0 n).1 q = some (STree.node info cs))
    (hcs : cs ≠ []) :
    1 ≤ info.visits ∧ ∀ c ∈ cs, 1 ≤ c.info.visits := by
  have hh := subtree_healthy q _ _ (run_healthy g key rng rfuel s0 n) hq
  cases hh with
  | node _ _ hv hcv _ => exact ⟨hv hcs, hcv⟩

theorem subtreeAt_nil_self {μ : Type} (t : STree μ) :
    subtreeAt t [] = some (STree.node t.info t.children) := by
  cases t
  rfl

/-- C7 witness: the root of the tree after one iteration on the empty
tic-tac-toe board has one child; both it and the child have at least one
visit. -/
theorem claim_C7_witness :
    1 ≤ (run tttGame visitsKey zeroRng 9 TicTacToe.init 1).1.info.visits ∧
    ∀ c ∈ (run tttGame visitsKey zeroRng 9 TicTacToe.init 1).1.children,
      1 ≤ c.info.visits :=
  claim_C7_ucb_denominators tttGame visitsKey zeroRng 9 TicTacToe.init 1 [] _ _
    (subtreeAt_nil_self _)
    (by
      intro hnil
      have hlen : (run tttGame visitsKey zeroRng 9 TicTacToe.init 1).1.children.length = 1 :=
        rfl
      rw [hnil] at hlen
      cases hlen)

/-- C8: after `n` iterations the root's visit count is exactly `n`, and every
node's visit count equals the sum of its children's visit counts plus the
number of iterations whose backpropagation started exactly at that node
(`count` of its path in the recorded start-path list). -/
theorem claim_C8_visit_conservation {σ μ β : Type} [DecidableEq μ] [LinearOrder β]
    (g : Game σ μ) (key : Nat → NodeInfo μ → β) (rng : Nat → Nat) (rfuel : Nat)
    (s0 : σ) (n : Nat) :
    (run g key rng rfuel s0 n).1.info.visits = n ∧
    ∀ q info cs,
      subtreeAt (run g key rng rfuel s0 n).1 q = some (STree.node info cs) →
      info.visits = (cs.map (fun c => c.info.visits)).sum +
        (run g key rng rfuel s0 n).2.2.count q :=
  ⟨run_root_visits g key rng rfuel s0 n, run_conservation g key rng rfuel s0 n⟩

/-- C8 witness: after one iteration on the empty tic-tac-toe board the root
has one visit; its one child accounts for it (the recorded start path [0]
differs from the root's path []). -/
theorem claim_C8_witness :
    (run tttGame visitsKey zeroRng 9 TicTacToe.init 1).1.info.visits = 1 ∧
    (run tttGame visitsKey zeroRng 9 TicTacToe.init 1).1.info.visits =
      ((run tttGame visitsKey zeroRng 9 TicTacToe.init 1).1.children.map
        (fun c => c.info.visits)).sum +
      (run tttGame visitsKey zeroRng 9 TicTacToe.init 1).2.2.count [] :=
  ⟨(claim_C8_visit_conservation tttGame visitsKey zeroRng 9 TicTacToe.init 1).1,
   (claim_C8_visit_conservation tttGame visitsKey zeroRng 9 TicTacToe.init 1).2 [] _ _
     (subtreeAt_nil_self _)⟩

/-- C4: with at least one iteration and at least one legal root move,
`search` returns the move of a root child whose visit count is maximal among
all root children, and among the maximal-visit children it is the one latest
in child-insertion order (the root's `child_nodes` list is append-only, and
the stable ascending sort puts the rightmost maximum last). -/
theorem claim_C4_returns_most_visited {σ μ β : Type} [DecidableEq μ] [LinearOrder β]
    (g : Game σ μ) (key : Nat → NodeInfo μ → β) (rng : Nat → Nat) (rfuel : Nat)
    (s0 : σ) (itermax : Nat) (h1 : 1 ≤ itermax) (hmv : g.get_moves s0 ≠ []) :
    ∃ c l1 l2,
      (run g key rng rfuel s0 itermax).1.children = l1 ++ c :: l2 ∧
      search g key rng rfuel s0 itermax = c.info.move ∧
      (c.info.move).isSome ∧
      (∀ c' ∈ (run g key rng rfuel s0 itermax).1.children,
        c'.info.visits ≤ c.info.visits) ∧
      (∀ c' ∈ l2, c'.info.visits < c.info.visits) := by
  have hch := run_children_ne_nil g key rng rfuel s0 hmv itermax h1
  obtain ⟨c, hc⟩ := Option.isSome_iff_exists.mp
    (argmaxLast_isSome (fun c : STree μ => c.info.visits)
      (run g key rng rfuel s0 itermax).1.children hch)
  obtain ⟨l1, l2, hsplit, hlt⟩ := argmaxLast_rightmost hc
  refine ⟨c, l1, l2, hsplit, ?_, ?_, argmaxLast_le hc, hlt⟩
  · unfold search
    rw [pySorted_getLast?_eq_argmaxLast, hc]
    rfl
  · exact run_children_moves g key rng rfuel s0 itermax c (argmaxLast_mem hc)

/-- C4 witness: one iteration on the empty tic-tac-toe board. -/
theorem claim_C4_witness :
    ∃ c l1 l2,
      (run tttGame visitsKey zeroRng 9 TicTacToe.init 1).1.children = l1 ++ c :: l2 ∧
      search tttGame visitsKey zeroRng 9 TicTacToe.init 1 = c.info.move ∧
      (c.info.move).isSome ∧
      (∀ c' ∈ (run tttGame visitsKey zeroRng 9 TicTacToe.init 1).1.children,
        c'.info.visits ≤ c.info.visits) ∧
      (∀ c' ∈ l2, c'.info.visits < c.info.visits) :=
  claim_C4_returns_most_visited tttGame visitsKey zeroRng 9 TicTacToe.init 1
    (by decide) (by decide)

theorem countP_flip_one {l : List Nat} {p p' : Nat → Bool} {m : Nat}
    (hnd : l.Nodup) (hm : m ∈ l) (hpm : p m = true) (hp'm : p' m = false)
    (hagree : ∀ x ∈ l, x ≠ m → p' x = p x) :
    l.countP p' + 1 = l.countP p := by
  induction l with
  | nil => cases hm
  | cons a as ih =>
    rw [List.nodup_cons] at hnd
    rw [List.countP_cons, List.countP_cons]
    rcases List.mem_cons.mp hm with rfl | hm'
    · rw [hpm, hp'm]
      have heq : as.countP p' = as.countP p := by
        apply List.countP_congr
        intro x hx
        rw [hagree x (List.mem_cons_of_mem _ hx) (fun hc => hnd.1 (hc ▸ hx))]
      rw [heq]
      simp
    · have ham : a ≠ m := fun hc => hnd.1 (hc ▸ hm')
      rw [hagree a (List.mem_cons_self a as) ham]
      have hih := ih hnd.2 hm' (fun x hx hxm =>
        hagree x (List.mem_cons_of_mem a hx) hxm)
      omega

theorem ttt_do_move_step (s : TicTacToe) (m : Nat)
    (hp : s.player_just_moved = 1 ∨ s.player_just_moved = 2) (hm : m ∈ s.get_moves) :
    ∃ s', s.do_move m = some s' ∧
      (s'.player_just_moved = 1 ∨ s'.player_just_moved = 2) ∧
      s'.get_moves.length + 1 = s.get_moves.length := by
  have hm' := List.mem_filter.mp hm
  have hmr : m < 9 := List.mem_range.mp hm'.1
  have hm0 : s.board.getD m 1 = 0 := by simpa using hm'.2
  have hguard : m ≤ 8 ∧ s.board.getD m 1 = 0 := ⟨by omega, hm0⟩
  have hmlen : m < s.board.length := by
    by_contra hge
    rw [List.getD_eq_getElem?_getD, List.getElem?_eq_none (Nat.le_of_not_lt hge)] at hm0
    cases hm0
  have hpnew : 3 - s.player_just_moved ≠ 0 := by
    rcases hp with h | h <;> simp [h]
  refine ⟨⟨3 - s.player_just_moved, s.board.set m (3 - s.player_just_moved)⟩, ?_, ?_, ?_⟩
  · unfold TicTacToe.do_move
    rw [if_pos hguard]
  · rcases hp with h | h
    · right; rw [h]
    · left; rw [h]
  · show ((List.range 9).filter
        (fun i => (s.board.set m (3 - s.player_just_moved)).getD i 1 = 0)).length + 1 =
      s.get_moves.length
    unfold TicTacToe.get_moves
    rw [← List.countP_eq_length_filter, ← List.countP_eq_length_filter]
    apply countP_flip_one (List.nodup_range 9) (List.mem_range.mpr hmr)
    · simpa using hm0
    · simp only [List.getD_eq_getElem?_getD, List.getElem?_set_self hmlen, Option.getD_some]
      simp [hpnew]
    · intro x _ hxm
      have hset : (s.board.set m (3 - s.player_just_moved)).getD x 1 = s.board.getD x 1 := by
        rw [List.getD_eq_getElem?_getD, List.getElem?_set_ne (fun hc => hxm hc.symm),
          ← List.getD_eq_getElem?_getD]
      rw [hset]

theorem rollout_ttt_fills :
    ∀ (fuel : Nat) (s : TicTacToe) (k : Nat) (rng : Nat → Nat),
      s.get_moves.length ≤ fuel →
      (s.player_just_moved = 1 ∨ s.player_just_moved = 2) →
      (rollout tttGame rng fuel s k).1.get_moves = [] := by
  intro fuel
  induction fuel with
  | zero =>
    intro s k rng hle _
    exact List.length_eq_zero.mp (Nat.le_zero.mp hle)
  | succ fuel ih =>
    intro s k rng hle hp
    simp only [rollout]
    split
    · rename_i hms
      exact hms
    · rename_i m0 mrest hms
      have hmem : (m0 :: mrest).getD (rng k % (m0 :: mrest).length) m0 ∈ m0 :: mrest :=
        getD_mod_mem m0 mrest (rng k)
      have hmem2 : (m0 :: mrest).getD (rng k % (m0 :: mrest).length) m0 ∈ s.get_moves := by
        rw [show s.get_moves = tttGame.get_moves s from rfl, hms]
        exact hmem
      obtain ⟨s', hdo, hp', hlen⟩ := ttt_do_move_step s _ hp hmem2
      have hdo2 : tttGame.do_move s ((m0 :: mrest).getD (rng k % (m0 :: mrest).length) m0) =
          s' := by
        show (TicTacToe.do_move s _).getD s = s'
        rw [hdo]
        rfl
      rw [hdo2]
      apply ih s' (k + 1) rng ?_ hp'
      have hms_len : s.get_moves.length = mrest.length + 1 := by
        rw [show s.get_moves = tttGame.get_moves s from rfl, hms]
        rfl
      omega

/-- C10: a tic-tac-toe position can contain a completed three-in-a-row while
`get_moves` is still non-empty — `get_moves` returns every empty square with
no win check, so a won board is not terminal under the engine's
empty-move-list criterion — and from such a position the rollout loop keeps
applying random moves until the board is completely full (no legal moves
remain), for every random stream. -/
theorem claim_C10_won_board_not_terminal :
    (∃ t ∈ win_lines, s10.board.getD t.1 9 = 1 ∧ s10.board.getD t.2.1 9 = 1 ∧
      s10.board.getD t.2.2 9 = 1) ∧
    s10.get_moves ≠ [] ∧
    (∀ (rng : Nat → Nat) (k : Nat), (rollout tttGame rng 9 s10 k).1.get_moves = []) := by
  refine ⟨by decide, by decide, ?_⟩
  intro rng k
  exact rollout_ttt_fills 9 s10 k rng (by decide) (by decide)

theorem foldl_maxStep_enumFrom {α β : Type} [LinearOrder β] (key : α → β) :
    ∀ (xs : List α) (n m : Nat) (b : α),
      ((xs.enumFrom n).foldl (maxStep (fun p => key p.2)) (m, b)).2 =
        xs.foldl (maxStep key) b := by
  intro xs
  induction xs with
  | nil => intro n m b; rfl
  | cons x xs ih =>
    intro n m b
    rw [List.enumFrom_cons, List.foldl_cons, List.foldl_cons]
    have hstep : maxStep (fun p : Nat × α => key p.2) (m, b) (n, x) =
        if key b ≤ key x then (n, x) else (m, b) := rfl
    rw [hstep]
    by_cases hbx : key b ≤ key x
    · rw [if_pos hbx, ih, show maxStep key b x = x from if_pos hbx]
    · rw [if_neg hbx, ih, show maxStep key b x = b from if_neg hbx]

/-- The index-based selection used inside the search loop picks exactly the
element that `sorted(l, key=key)[-1]` (that is, `argmaxLast`) returns, so the
loop's child replacement is faithful to `select_child`. -/
theorem argmaxIdxLast_getElem {α β : Type} [LinearOrder β] (key : α → β) (l : List α) :
    (argmaxIdxLast key l).bind (fun i => l[i]?) = argmaxLast key l := by
  cases l with
  | nil => rfl
  | cons x xs =>
    unfold argmaxIdxLast
    have henum : (x :: xs).enum = (0, x) :: xs.enumFrom 1 := rfl
    rw [henum]
    simp only [argmaxLast, Option.map_some', Option.some_bind]
    set r := (xs.enumFrom 1).foldl (maxStep (fun p : Nat × α => key p.2)) (0, x) with hr
    have hsnd : r.2 = xs.foldl (maxStep key) x := foldl_maxStep_enumFrom key xs 1 0 x
    have hmem : r = (0, x) ∨ r ∈ xs.enumFrom 1 := by
      rw [hr]
      exact foldl_maxStep_mem (fun p : Nat × α => key p.2) (xs.enumFrom 1) (0, x)
    have hmem2 : r ∈ (x :: xs).enum := by
      rw [henum]
      rcases hmem with hm | hm
      · rw [hm]
        exact List.mem_cons_self _ _
      · exact List.mem_cons_of_mem _ hm
    have hget : (x :: xs)[r.1]? = some r.2 := List.mem_enum_iff_getElem?.mp hmem2
    rw [hget, hsnd]
